import Mathlib

/-!
# Verification of the PyBaMM expression-tree parameter substitution engine

This development embeds, in Lean, the components of PyBaMM that the
specification describes:

* `FuzzyDict` (from `src/pybamm/util.py`) — the parameter store's lookup
  machinery with fuzzy-match diagnostics and deprecation redirects.  This code
  is present in the repository and is embedded directly from the source,
  including a model of Python's `difflib.get_close_matches` (no junk
  heuristic, which is exact for keys shorter than 200 characters).  Numeric
  similarity ratios are modelled with exact rationals; for these string
  lengths the floating-point cutoff comparison `0.5 <= ratio` agrees with the
  exact rational comparison.

* The substitution engine `processSymbol` / `processModel`
  (`ParameterValues.process_symbol` / `process_model`).  The Python source of
  this component is not part of the repository sample (only its unit tests
  are), so it is modelled from the specification, with the behaviour pinned
  down by the in-repository tests in
  `src/tests/unit/test_parameters/test_parameter_values.py`.  Numbers are
  modelled as exact rationals; native callables bound in the store are
  modelled as affine functions of one argument (slope, intercept), which is
  the shape exercised by every test relevant to the claims; the named-argument
  dictionary of a `FunctionParameter` is modelled with a single named
  argument, and a node's domain metadata is represented by explicit
  `PrimaryBroadcast` wrappers.
-/

set_option maxRecDepth 20000

deriving instance DecidableEq for Except

namespace PyBaMM

/-! ## Expression nodes

Modelled from the spec: the tagged-variant expression node family (§3).
`Scalar`, `Parameter`, `InputParameter`, `Variable`, `FunctionParameter`
(with its optional differentiation variable, as set by
`FunctionParameter.diff`), binary and unary operators, broadcasts,
concatenations and the spatial-average integral.  `FoldedScalar` is the
"Scalar with a back-reference" of the design notes (§9): a scalar produced by
folding a resolved function application, which retains the original
(callable, processed-argument) definition — the callable as its polynomial
coefficient list — so that a later differentiation request can recompute
structurally instead of differentiating the collapsed constant. -/

inductive BinKind where
  | add | sub | mul | div
deriving DecidableEq, Repr

inductive UnKind where
  | neg
deriving DecidableEq, Repr

inductive Expr where
  | Scalar (v : ℚ)
  | FoldedScalar (v : ℚ) (coeffs : List ℚ) (arg : Expr)
  | Parameter (name : String)
  | InputParameter (name : String)
  | Variable (name : String)
  | FunctionParameter (name argName : String) (arg : Expr) (diffVariable : Option Expr)
  | BinaryOperator (k : BinKind) (left right : Expr)
  | UnaryOperator (k : UnKind) (child : Expr)
  | PrimaryBroadcast (child : Expr) (domain : String)
  | Concatenation (children : List Expr)
  | Integral (child : Expr)
deriving Repr

mutual
/-- Structural equality of expression nodes (pybamm `Symbol.__eq__`). -/
def beqExpr : Expr → Expr → Bool
  | .Scalar v, .Scalar w => v == w
  | .FoldedScalar v cs a, .FoldedScalar v2 cs2 a2 =>
      v == v2 && cs == cs2 && beqExpr a a2
  | .Parameter n, .Parameter m => n == m
  | .InputParameter n, .InputParameter m => n == m
  | .Variable n, .Variable m => n == m
  | .FunctionParameter n an a d, .FunctionParameter n2 an2 a2 d2 =>
      n == n2 && an == an2 && beqExpr a a2 && beqOptExpr d d2
  | .BinaryOperator k l r, .BinaryOperator k2 l2 r2 =>
      k == k2 && beqExpr l l2 && beqExpr r r2
  | .UnaryOperator k c, .UnaryOperator k2 c2 => k == k2 && beqExpr c c2
  | .PrimaryBroadcast c d, .PrimaryBroadcast c2 d2 => beqExpr c c2 && d == d2
  | .Concatenation cs, .Concatenation cs2 => beqListExpr cs cs2
  | .Integral c, .Integral c2 => beqExpr c c2
  | _, _ => false

def beqOptExpr : Option Expr → Option Expr → Bool
  | none, none => true
  | some a, some b => beqExpr a b
  | _, _ => false

def beqListExpr : List Expr → List Expr → Bool
  | [], [] => true
  | a :: as, b :: bs => beqExpr a b && beqListExpr as bs
  | _, _ => false
end

mutual
/-- Does `d` occur in the tree (pybamm `x in child.pre_order()`)? -/
def occursIn (d : Expr) : Expr → Bool
  | .Scalar v => beqExpr (.Scalar v) d
  | .FoldedScalar v cs a => beqExpr (.FoldedScalar v cs a) d || occursIn d a
  | .Parameter n => beqExpr (.Parameter n) d
  | .InputParameter n => beqExpr (.InputParameter n) d
  | .Variable n => beqExpr (.Variable n) d
  | .FunctionParameter n an a dv =>
      beqExpr (.FunctionParameter n an a dv) d || occursIn d a || occursInOpt d dv
  | .BinaryOperator k l r =>
      beqExpr (.BinaryOperator k l r) d || occursIn d l || occursIn d r
  | .UnaryOperator k c => beqExpr (.UnaryOperator k c) d || occursIn d c
  | .PrimaryBroadcast c dom => beqExpr (.PrimaryBroadcast c dom) d || occursIn d c
  | .Concatenation cs => beqExpr (.Concatenation cs) d || occursInList d cs
  | .Integral c => beqExpr (.Integral c) d || occursIn d c

def occursInOpt (d : Expr) : Option Expr → Bool
  | none => false
  | some a => occursIn d a

def occursInList (d : Expr) : List Expr → Bool
  | [] => false
  | a :: as => occursIn d a || occursInList d as
end

/-! ## Simplifying node constructors

Modelled from the spec: the engine's constant folding (§8 "Folding law": any
operator subtree whose operands are constants folds to a single Scalar equal
to evaluating the operator natively), together with the zero/one elimination
and constant-to-the-left canonicalisation of pybamm's simplified binary
operations, which the end-to-end example of §8 relies on
(`Parameter(a) + Parameter(b)` with `a: "[input]", b: 3` processes to an
expression equal to `3 + InputParameter(a)`). -/

def binNative : BinKind → ℚ → ℚ → ℚ
  | .add, a, b => a + b
  | .sub, a, b => a - b
  | .mul, a, b => a * b
  | .div, a, b => a / b

def unNative : UnKind → ℚ → ℚ
  | .neg, a => -a

def mkAdd : Expr → Expr → Expr
  | .Scalar a, .Scalar b => .Scalar (a + b)
  | .Scalar a, r => if a = 0 then r else .BinaryOperator .add (.Scalar a) r
  | l, .Scalar b => if b = 0 then l else .BinaryOperator .add (.Scalar b) l
  | l, r => .BinaryOperator .add l r

def mkSub : Expr → Expr → Expr
  | .Scalar a, .Scalar b => .Scalar (a - b)
  | l, .Scalar b => if b = 0 then l else .BinaryOperator .sub l (.Scalar b)
  | l, r => .BinaryOperator .sub l r

def mkMul : Expr → Expr → Expr
  | .Scalar a, .Scalar b => .Scalar (a * b)
  | .Scalar a, r =>
      if a = 0 then .Scalar 0
      else if a = 1 then r
      else .BinaryOperator .mul (.Scalar a) r
  | l, .Scalar b =>
      if b = 0 then .Scalar 0
      else if b = 1 then l
      else .BinaryOperator .mul (.Scalar b) l
  | l, r => .BinaryOperator .mul l r

def mkDiv : Expr → Expr → Expr
  | .Scalar a, .Scalar b => .Scalar (a / b)
  | l, .Scalar b => if b = 1 then l else .BinaryOperator .div l (.Scalar b)
  | l, r => .BinaryOperator .div l r

def mkBin : BinKind → Expr → Expr → Expr
  | .add => mkAdd
  | .sub => mkSub
  | .mul => mkMul
  | .div => mkDiv

def mkUn : UnKind → Expr → Expr
  | k, .Scalar a => .Scalar (unNative k a)
  | k, c => .UnaryOperator k c

/-! ## Polynomial callables

Modelled from the spec: a "native callable" bound in the Parameter Store.
The tests resolve function parameters to polynomial functions of one argument
(`lambda x: 42`, `123 * var`, `c ** 2`), so a callable is modelled as the
polynomial with the given coefficient list (lowest degree first), evaluated
in Horner form.  Invoking the callable on a symbolic argument builds the
Horner expression tree for it, exactly as applying a native function to a
symbolic node builds its operator tree. -/

/-- `polyEval coeffs x` is the value of the polynomial at `x` (Horner). -/
def polyEval : List ℚ → ℚ → ℚ
  | [], _ => 0
  | a :: rest, x => a + x * polyEval rest x

/-- The value of the polynomial's derivative at `x` (Horner form of
`(a + x * P(x))' = P(x) + x * P'(x)`); `polyEval_hasDerivAt` below proves it
is the true derivative of `polyEval coeffs` at `x`. -/
def polyEvalDeriv : List ℚ → ℚ → ℚ
  | [], _ => 0
  | _ :: rest, x => polyEval rest x + x * polyEvalDeriv rest x

/-- The Horner expression tree of the polynomial applied to the symbolic
argument `x`, built with the plain node constructors: the pre-fold definition
of a resolved function application, kept unsimplified for differentiation
(the engine does not simplify the function body built around the
differentiation variable). -/
def polyBody : List ℚ → Expr → Expr
  | [], _ => .Scalar 0
  | a :: rest, x => .BinaryOperator .add (.Scalar a) (.BinaryOperator .mul x (polyBody rest x))

/-- The Horner expression tree of the polynomial applied to `x`, built with
the simplifying constructors (the result of invoking the callable on an
already-processed argument through the overloaded operators). -/
def polyBodyS : List ℚ → Expr → Expr
  | [], _ => .Scalar 0
  | a :: rest, x => mkAdd (.Scalar a) (mkMul x (polyBodyS rest x))

/-- The Horner expression tree of the polynomial's derivative applied to
`x`, built with the simplifying constructors: the structural recomputation a
`FoldedScalar` back-reference supports. -/
def polyDerivBody : List ℚ → Expr → Expr
  | [], _ => .Scalar 0
  | _ :: rest, x => mkAdd (polyBodyS rest x) (mkMul x (polyDerivBody rest x))

/-! ## Symbolic differentiation

Modelled from the spec (§4.2 "Differentiation", §9): `Symbol.diff`.
Differentiating an unprocessed `FunctionParameter` records the differentiation
variable on the node (pybamm `FunctionParameter._diff`); differentiating a
`FoldedScalar` threads through to the retained pre-fold polynomial definition
(derivative of the polynomial at the retained argument, times the argument's
derivative) rather than treating the node as a constant. -/

def Expr.diff (e d : Expr) : Expr :=
  if beqExpr e d then .Scalar 1 else
  match e with
  | .Scalar _ => .Scalar 0
  | .FoldedScalar _ cs a => mkMul (polyDerivBody cs a) (Expr.diff a d)
  | .Parameter _ => .Scalar 0
  | .InputParameter _ => .Scalar 0
  | .Variable _ => .Scalar 0
  | .FunctionParameter n an a _ =>
      if occursIn d a then .FunctionParameter n an a (some d) else .Scalar 0
  | .BinaryOperator .add l r => mkAdd (Expr.diff l d) (Expr.diff r d)
  | .BinaryOperator .sub l r => mkSub (Expr.diff l d) (Expr.diff r d)
  | .BinaryOperator .mul l r =>
      mkAdd (mkMul (Expr.diff l d) r) (mkMul l (Expr.diff r d))
  | .BinaryOperator .div l r =>
      mkDiv (mkSub (mkMul (Expr.diff l d) r) (mkMul l (Expr.diff r d)))
        (mkMul r r)
  | .UnaryOperator .neg c => mkUn .neg (Expr.diff c d)
  | .PrimaryBroadcast c dom => .PrimaryBroadcast (Expr.diff c d) dom
  | .Concatenation _ => .Scalar 0
  | .Integral _ => .Scalar 0

/-! ## Python string primitives

Character-exact models of the Python string operations used by
`FuzzyDict.__getitem__` in `src/pybamm/util.py`: substring containment
(`in`), substring replacement (`str.replace`, all occurrences), suffix test
(`str.endswith("]")`), first word (`key.split(" ")[0]`), and code-point
lexicographic comparison (used by `heapq.nlargest` on `(score, key)` pairs
inside `difflib.get_close_matches`). -/

def isPrefixList : List Char → List Char → Bool
  | [], _ => true
  | _ :: _, [] => false
  | a :: as, b :: bs => a == b && isPrefixList as bs

def containsList (sub : List Char) : List Char → Bool
  | [] => isPrefixList sub []
  | c :: rest => isPrefixList sub (c :: rest) || containsList sub rest

/-- `strContains s sub` is Python `sub in s`. -/
def strContains (s sub : String) : Bool :=
  containsList sub.data s.data

def replaceList : Nat → List Char → List Char → List Char → List Char
  | 0, _, _, l => l
  | _ + 1, _, _, [] => []
  | fuel + 1, pat, rep, c :: rest =>
    if pat.isEmpty then c :: rest
    else if isPrefixList pat (c :: rest) then
      rep ++ replaceList fuel pat rep ((c :: rest).drop pat.length)
    else
      c :: replaceList fuel pat rep rest

/-- `strReplace s pat rep` is Python `s.replace(pat, rep)` (all occurrences;
the fuel `s.length` bounds the recursion depth, each step consuming at least
one character of `s`). -/
def strReplace (s pat rep : String) : String :=
  String.mk (replaceList s.data.length pat.data rep.data s.data)

def endsWithRBrack (s : String) : Bool :=
  match s.data.getLast? with
  | some c => c == ']'
  | none => false

def firstWord (s : String) : String :=
  String.mk (s.data.takeWhile (fun c => !(c == ' ')))

def charListLt : List Char → List Char → Bool
  | [], [] => false
  | [], _ :: _ => true
  | _ :: _, [] => false
  | a :: as, b :: bs => if a < b then true else if b < a then false else charListLt as bs

/-- Python string `<` (code-point lexicographic). -/
def strLtB (s t : String) : Bool :=
  charListLt s.data t.data

/-! ## difflib model

`difflib.SequenceMatcher` with no junk (exact for the parameter-name strings
at hand, which are far below the 200-character autojunk threshold), as used by
`difflib.get_close_matches(key, keys, n=3, cutoff=0.5)` in
`FuzzyDict.get_best_matches` (`src/pybamm/util.py`).  The similarity ratio is
`2 * M / T` where `M` is the total size of the matching blocks found by the
recursive longest-matching-block decomposition and `T` the sum of the two
lengths; the decomposition is computed here with explicit fuel
(`length a + length b` bounds the recursion depth, since each recursive call
strictly shrinks the window). -/

/-- Length of the common run at the heads of the two suffixes. -/
def runLen : List Char → List Char → Nat
  | a :: as, b :: bs => if a == b then runLen as bs + 1 else 0
  | _, _ => 0

/-- `SequenceMatcher.find_longest_match` over whole windows: among all start
pairs `(i, j)`, the one with the longest common run, ties broken by smallest
`i` then smallest `j` (difflib's tie-breaking). -/
def bestMatch (a b : List Char) : Nat × Nat × Nat :=
  let cands := (List.range a.length).flatMap fun i =>
    (List.range b.length).map fun j => (i, j, runLen (a.drop i) (b.drop j))
  cands.foldl (fun best c => if best.2.2 < c.2.2 then c else best) (0, 0, 0)

/-- Total size of all matching blocks (`SequenceMatcher.get_matching_blocks`
recursion, summed). -/
def matchTotalF : Nat → List Char → List Char → Nat
  | 0, _, _ => 0
  | fuel + 1, a, b =>
    let m := bestMatch a b
    if m.2.2 = 0 then 0
    else
      matchTotalF fuel (a.take m.1) (b.take m.2.1) + m.2.2 +
        matchTotalF fuel (a.drop (m.1 + m.2.2)) (b.drop (m.2.1 + m.2.2))

def matchTotal (a b : List Char) : Nat :=
  matchTotalF (a.length + b.length) a b

/-- The similarity ratio determined by `M` matched characters out of `T`
total: `2 * M / T`, and 1 when both sequences are empty
(`difflib._calculate_ratio`). -/
def ratioVal (M T : ℕ) : ℚ :=
  if T = 0 then 1 else (2 * M : ℚ) / (T : ℚ)

/-- `SequenceMatcher.ratio()` as an exact rational. -/
def ratioQ (a b : String) : ℚ :=
  ratioVal (matchTotal a.data b.data) (a.data.length + b.data.length)

/-- The ratio determined by `(M, T)` as an exact integer fraction
(numerator, positive denominator), for cross-multiplication comparisons. -/
def scoreFrac (M T : ℕ) : ℕ × ℕ :=
  if T = 0 then (1, 1) else (2 * M, T)

/-- `cutoff <= ratio` for cutoff `0.5`, computed exactly by
cross-multiplication (equivalent to the floating-point comparison in
`difflib.get_close_matches` for these string lengths). -/
def cutoffOK (M T : ℕ) : Bool :=
  (scoreFrac M T).2 ≤ 2 * (scoreFrac M T).1

/-- `ratio₁ < ratio₂` by cross-multiplication. -/
def scoreLtB (M1 T1 M2 T2 : ℕ) : Bool :=
  (scoreFrac M1 T1).1 * (scoreFrac M2 T2).2 < (scoreFrac M2 T2).1 * (scoreFrac M1 T1).2

/-- `ratio₁ = ratio₂` by cross-multiplication. -/
def scoreEqB (M1 T1 M2 T2 : ℕ) : Bool :=
  (scoreFrac M1 T1).1 * (scoreFrac M2 T2).2 == (scoreFrac M2 T2).1 * (scoreFrac M1 T1).2

/-- A scored possibility: matched characters `M`, total length `T`, and the
possibility itself. -/
abbrev Scored := ℕ × ℕ × String

/-- Ordering used by `heapq.nlargest` on `(score, string)` pairs: `p` sorts
strictly before `q` in the descending result when `p`'s ratio is larger, or
the ratios are equal and `p`'s string is larger. -/
def pairBefore (p q : Scored) : Bool :=
  scoreLtB q.1 q.2.1 p.1 p.2.1 ||
    (scoreEqB p.1 p.2.1 q.1 q.2.1 && strLtB q.2.2 p.2.2)

def insertDesc (p : Scored) : List Scored → List Scored
  | [] => [p]
  | q :: qs => if pairBefore p q then p :: q :: qs else q :: insertDesc p qs

def sortDesc : List Scored → List Scored
  | [] => []
  | p :: rest => insertDesc p (sortDesc rest)

/-- `difflib.get_close_matches(word, possibilities, n=3, cutoff=0.5)`:
keep the possibilities whose ratio to `word` is at least the cutoff, and
return the 3 best, ranked by similarity (descending, ties broken by the
string ordering as in `heapq.nlargest` on `(score, string)` pairs). -/
def getCloseMatches (word : String) (possibilities : List String) : List String :=
  let scored : List Scored := possibilities.filterMap fun x =>
    let M := matchTotal x.data word.data
    let T := x.data.length + word.data.length
    if cutoffOK M T then some (M, T, x) else none
  ((sortDesc scored).take 3).map fun p => p.2.2

/-! ## FuzzyDict (`src/pybamm/util.py`, class `FuzzyDict`) -/

/-- An ordered mapping from parameter-name strings to values, with fuzzy
lookup diagnostics.  Models `pybamm.FuzzyDict` (a `dict` subclass). -/
structure FuzzyDict (α : Type) where
  entries : List (String × α)

def FuzzyDict.keys (d : FuzzyDict α) : List String :=
  d.entries.map Prod.fst

/-- The plain `dict.__getitem__` underneath (`super().__getitem__`). -/
def FuzzyDict.lookupRaw (d : FuzzyDict α) (key : String) : Option α :=
  List.lookup key d.entries

/-- `FuzzyDict.get_best_matches`. -/
def FuzzyDict.getBestMatches (d : FuzzyDict α) (key : String) : List String :=
  getCloseMatches key d.keys

/-- A `DeprecationWarning` emitted by the particle-diffusivity redirect:
"The parameter oldName has been renamed to newName". -/
structure Deprecation where
  oldName : String
  newName : String
deriving DecidableEq, Repr

/-- The `KeyError` conditions `FuzzyDict.__getitem__` can raise, one
constructor per distinct message shape in the source. -/
inductive GetErr where
  /-- a bare `KeyError` from the inner dict on the redirected key -/
  | plainKeyError (key : String)
  /-- "Variable (domain) electrode SOC has been renamed to
  (domain) electrode stoichiometry to avoid confusion with cell SOC" -/
  | socRenamed (domain : String)
  /-- the Measured open circuit voltage rename message -/
  | measuredOCV
  /-- "Parameter Open-circuit voltage at 0% SOC [V] not found. In most cases
  this should be set to be equal to Lower voltage cut-off [V]" -/
  | ocv0NotFound
  /-- the analogous message for 100% SOC, pointing at the upper cut-off -/
  | ocv100NotFound
  /-- "key not found. Use the dimensional version best instead." -/
  | useDimensional (key best : String)
  /-- "key not found. Best matches are bestMatches" -/
  | notFound (key : String) (bestMatches : List String)
deriving DecidableEq, Repr

/-- The replacement name, when the error message explicitly names one. -/
def GetErr.replacementNamed : GetErr → Option String
  | .socRenamed domain => some (domain ++ " electrode stoichiometry")
  | .measuredOCV => some "Surface open-circuit voltage [V]"
  | .ocv0NotFound => some "Lower voltage cut-off [V]"
  | .ocv100NotFound => some "Upper voltage cut-off [V]"
  | _ => none

/-- The fuzzy-match suggestions carried by the error message. -/
def GetErr.suggestions : GetErr → List String
  | .useDimensional _ best => [best]
  | .notFound _ bms => bms
  | _ => []

/-- `FuzzyDict.__getitem__` (`src/pybamm/util.py`): exact lookup, then the
particle-diffusivity deprecation redirect, then the explicit rename errors,
then the dimensional-version hint, then the generic best-matches error. -/
def FuzzyDict.getItem (d : FuzzyDict α) (key : String) :
    Except GetErr (Option Deprecation × α) :=
  match d.lookupRaw key with
  | some v => .ok (none, v)
  | none =>
    if strContains key "particle diffusivity" then
      let newKey := strReplace key "particle" "electrode"
      match d.lookupRaw newKey with
      | some v => .ok (some ⟨newKey, key⟩, v)
      | none => .error (.plainKeyError newKey)
    else if key = "Negative electrode SOC" ∨ key = "Positive electrode SOC" then
      .error (.socRenamed (firstWord key))
    else if strContains key "Measured open circuit voltage" then
      .error .measuredOCV
    else if strContains key "Open-circuit voltage at 0% SOC [V]" then
      .error .ocv0NotFound
    else if strContains key "Open-circuit voltage at 100% SOC [V]" then
      .error .ocv100NotFound
    else
      let bms := d.getBestMatches key
      match bms.find? (fun k => strContains k key && endsWithRBrack k) with
      | some k => .error (.useDimensional key k)
      | none => .error (.notFound key bms)

/-! ## The parameter store and the substitution engine

Modelled from the spec: `ParameterValues.process_symbol` (§4.2) and
`ParameterValues.process_model` (§4.3) are not part of the repository sample
(only their unit tests are), so they are reconstructed from the
specification, with the dispatch order of the `FunctionParameter` branch
pinned down by the in-repository test
`test_process_function_parameter` (the function name is resolved before the
arguments are touched, and a numeric-constant resolution never processes the
arguments — the test processes a constant `FunctionParameter` whose argument
holds a `Parameter` absent from the store and requires success). -/

/-- A value descriptor held by the Parameter Store: a numeric constant, the
external-input marker `"[input]"`, or a native callable of one argument
(modelled as the polynomial with the given coefficients, lowest degree
first — the shape of every callable in the tests, e.g. `lambda x: 42` is
`[42]`, `123 * var` is `[0, 123]` and `c ** 2` is `[0, 0, 1]`). -/
inductive Value where
  | const (c : ℚ)
  | input
  | callable (coeffs : List ℚ)
deriving DecidableEq, Repr

/-- `pybamm.ParameterValues`: a `FuzzyDict` of value descriptors. -/
abbrev ParameterValues := FuzzyDict Value

inductive PErr where
  /-- a failed store lookup (`KeyError`), with its diagnostics -/
  | lookupErr (e : GetErr)
  /-- "Cannot process parameter" — a bare `Parameter` bound to a descriptor
  that is not a constant and not the input marker (`TypeError`) -/
  | typeMismatch (name : String)
  /-- "Cannot process parameters for empty model" (`pybamm.ModelError`) -/
  | emptyModel
deriving DecidableEq, Repr

def capFirst (s : String) : String :=
  match s.data with
  | [] => s
  | c :: cs => String.mk (c.toUpper :: cs)

/-- The store key holding the extent of a sub-domain, e.g.
`"negative electrode" => "Negative electrode thickness [m]"`. -/
def thicknessName (domain : String) : String :=
  capFirst domain ++ " thickness [m]"

/-- The numeric constant a name resolves to, if any. -/
def constOf (pv : ParameterValues) (name : String) : Option ℚ :=
  match pv.getItem name with
  | .ok (_, .const c) => some c
  | _ => none

/-- Modelled from the spec (§4.2): the special case for integrals over a
domain-concatenation of broadcasts.  If every branch is a broadcast of a
constant scalar over a sub-domain, the whole spatial integral folds to a
single weighted constant, the weights being the sub-domain extents obtained
from the store. -/
def broadcastConstPart (pv : ParameterValues) : Expr → Option (ℚ × ℚ)
  | .PrimaryBroadcast (.Scalar v) dom =>
      match constOf pv (thicknessName dom) with
      | some ext => some (v, ext)
      | none => none
  | _ => none

def foldConcatBroadcasts (pv : ParameterValues) (branches : List Expr) : Option ℚ :=
  match branches.mapM (broadcastConstPart pv) with
  | none => none
  | some parts =>
    let total := (parts.map Prod.snd).sum
    if total = 0 then none
    else some ((parts.map fun p => p.1 * p.2).sum / total)

/-- The `FunctionParameter` dispatch of the engine, factored out of the
recursion: `n` is the function name, `v` the descriptor its name resolved to,
`ra` the (lazily irrelevant, see below) result of processing the single named
argument and `rd` the result of processing the differentiation variable, when
one is set.  For a numeric-constant descriptor the argument result is
discarded without inspection — the in-repository test processes a constant
`FunctionParameter` whose argument holds an absent `Parameter` and requires
success.  For the input marker an `InputParameter` carrying the function name
is produced.  For a callable, a failing argument fails the call; an
all-constant application folds (retaining the pre-fold definition in a
`FoldedScalar`); and under a differentiation variable the pre-fold polynomial
body is differentiated symbolically. -/
def finishFunctionParameter (n : String) (v : Value) (ra : Except PErr Expr)
    (rd : Option (Except PErr Expr)) : Except PErr Expr :=
  match v with
  | .const c =>
    match rd with
    | none => .ok (.Scalar c)
    | some (.error e) => .error e
    | some (.ok d2) => .ok (Expr.diff (.Scalar c) d2)
  | .input =>
    match rd with
    | none => .ok (.InputParameter n)
    | some (.error e) => .error e
    | some (.ok d2) => .ok (Expr.diff (.InputParameter n) d2)
  | .callable cs =>
    match ra with
    | .error e => .error e
    | .ok a2 =>
      match rd with
      | none =>
        match a2 with
        | .Scalar c => .ok (.FoldedScalar (polyEval cs c) cs (.Scalar c))
        | a2 => .ok (polyBodyS cs a2)
      | some (.error e) => .error e
      | some (.ok d2) => .ok (Expr.diff (polyBody cs a2) d2)

mutual
/-- Modelled from the spec: `ParameterValues.process_symbol` (§4.2), the
recursive tree-rewrite pass.  `Scalar`/`Variable`/`InputParameter` leaves are
returned unchanged; a `Parameter` resolves through the store to a `Scalar`
or an `InputParameter`; a `FunctionParameter` resolves its name first and
then (for non-constant descriptors) its argument, retaining — when a
constant argument lets the application fold — the pre-fold polynomial
definition in a `FoldedScalar` so that later differentiation threads through to the
original function (§9 design note); operators, broadcasts and concatenations
are rebuilt over their processed children with constant folding; an
`Integral` over a concatenation of constant broadcasts folds to the weighted
constant computed by `foldConcatBroadcasts`.  The node `Integral` models the
spatial-average integral of `pybamm.x_average` (weights normalised by the
total extent). -/
def processSymbol (pv : ParameterValues) : Expr → Except PErr Expr
  | .Scalar v => .ok (.Scalar v)
  | .FoldedScalar v cs a =>
    match processSymbol pv a with
    | .error e => .error e
    | .ok a2 => .ok (.FoldedScalar v cs a2)
  | .Parameter n =>
    match pv.getItem n with
    | .error e => .error (.lookupErr e)
    | .ok (_, .const c) => .ok (.Scalar c)
    | .ok (_, .input) => .ok (.InputParameter n)
    | .ok (_, .callable _) => .error (.typeMismatch n)
  | .InputParameter n => .ok (.InputParameter n)
  | .Variable n => .ok (.Variable n)
  | .FunctionParameter n _an a dv =>
    match pv.getItem n with
    | .error e => .error (.lookupErr e)
    | .ok (_, v) =>
      match dv with
      | none => finishFunctionParameter n v (processSymbol pv a) none
      | some d => finishFunctionParameter n v (processSymbol pv a) (some (processSymbol pv d))
  | .BinaryOperator k l r =>
    match processSymbol pv l with
    | .error e => .error e
    | .ok l2 =>
      match processSymbol pv r with
      | .error e => .error e
      | .ok r2 => .ok (mkBin k l2 r2)
  | .UnaryOperator k c =>
    match processSymbol pv c with
    | .error e => .error e
    | .ok c2 => .ok (mkUn k c2)
  | .PrimaryBroadcast c dom =>
    match processSymbol pv c with
    | .error e => .error e
    | .ok c2 => .ok (.PrimaryBroadcast c2 dom)
  | .Concatenation cs =>
    match processSeq pv cs with
    | .error e => .error e
    | .ok cs2 => .ok (.Concatenation cs2)
  | .Integral c =>
    match processSymbol pv c with
    | .error e => .error e
    | .ok (.Concatenation bs) =>
      match foldConcatBroadcasts pv bs with
      | some w => .ok (.Scalar w)
      | none => .ok (.Integral (.Concatenation bs))
    | .ok c2 => .ok (.Integral c2)

/-- Processing of the children of a concatenation, left to right, failing on
the first failing child. -/
def processSeq (pv : ParameterValues) : List Expr → Except PErr (List Expr)
  | [] => .ok []
  | e :: es =>
    match processSymbol pv e with
    | .error err => .error err
    | .ok e2 =>
      match processSeq pv es with
      | .error err => .error err
      | .ok es2 => .ok (e2 :: es2)
end

/-! ## The model processor -/

/-- Modelled from the spec (§3): a model's named equation dictionaries.  The
per-side boundary-condition mapping is flattened to one entry per
(variable, side) pair. -/
structure Model where
  rhs : List (String × Expr)
  algebraic : List (String × Expr)
  initial_conditions : List (String × Expr)
  boundary_conditions : List (String × Expr)
  /-- the `variables` dictionary of observables (`variables` is a reserved
  word in Lean, hence the field name) -/
  variablesDict : List (String × Expr)
deriving Repr

def processDict (pv : ParameterValues) : List (String × Expr) →
    Except PErr (List (String × Expr))
  | [] => .ok []
  | (k, e) :: rest =>
    match processSymbol pv e with
    | .error err => .error err
    | .ok e2 =>
      match processDict pv rest with
      | .error err => .error err
      | .ok rest2 => .ok ((k, e2) :: rest2)

/-- Modelled from the spec: `ParameterValues.process_model` (§4.3).  A model
with empty `rhs` and empty `algebraic` fails with the Empty-Model condition
before any substitution is attempted; otherwise every entry of every
dictionary is processed through the substitution engine. -/
def processModel (pv : ParameterValues) (m : Model) : Except PErr Model :=
  if m.rhs.isEmpty && m.algebraic.isEmpty then .error .emptyModel
  else
    match processDict pv m.rhs with
    | .error err => .error err
    | .ok rhs =>
      match processDict pv m.algebraic with
      | .error err => .error err
      | .ok alg =>
        match processDict pv m.initial_conditions with
        | .error err => .error err
        | .ok ics =>
          match processDict pv m.boundary_conditions with
          | .error err => .error err
          | .ok bcs =>
            match processDict pv m.variablesDict with
            | .error err => .error err
            | .ok vars => .ok ⟨rhs, alg, ics, bcs, vars⟩

/-! ## Evaluation -/

/-- Solver-time evaluation of a fully resolved tree, given a binding for the
external inputs (pybamm `Symbol.evaluate(inputs=...)`). -/
def evalWith (inputs : String → ℚ) : Expr → Option ℚ
  | .Scalar v => some v
  | .FoldedScalar v _ _ => some v
  | .InputParameter n => some (inputs n)
  | .BinaryOperator k l r =>
    match evalWith inputs l, evalWith inputs r with
    | some a, some b => some (binNative k a b)
    | _, _ => none
  | .UnaryOperator k c => (evalWith inputs c).map (unNative k)
  | _ => none

mutual
/-- No `Parameter` and no `FunctionParameter` node occurs anywhere in the
tree: every leaf is of a kind a solver backend accepts (§6: only
Scalar/Variable/InputParameter-style leaves remain after a successful
substitution). -/
def resolved : Expr → Bool
  | .Scalar _ => true
  | .FoldedScalar _ _ a => resolved a
  | .Parameter _ => false
  | .InputParameter _ => true
  | .Variable _ => true
  | .FunctionParameter _ _ _ _ => false
  | .BinaryOperator _ l r => resolved l && resolved r
  | .UnaryOperator _ c => resolved c
  | .PrimaryBroadcast c _ => resolved c
  | .Concatenation cs => resolvedList cs
  | .Integral c => resolved c

def resolvedList : List Expr → Bool
  | [] => true
  | c :: cs => resolved c && resolvedList cs
end

/-- Trees whose leaves are `Scalar`s and `Parameter`s bound in the store to
numeric constants, combined by operators (the hypothesis of the folding law,
§8). -/
def constLeaves (pv : ParameterValues) : Expr → Bool
  | .Scalar _ => true
  | .Parameter n => (constOf pv n).isSome
  | .BinaryOperator _ l r => constLeaves pv l && constLeaves pv r
  | .UnaryOperator _ c => constLeaves pv c
  | _ => false

/-- The native numeric evaluation of a tree of constants (defined on trees
satisfying `constLeaves`; arbitrary elsewhere). -/
def nativeEval (pv : ParameterValues) : Expr → ℚ
  | .Scalar v => v
  | .Parameter n => (constOf pv n).getD 0
  | .BinaryOperator k l r => binNative k (nativeEval pv l) (nativeEval pv r)
  | .UnaryOperator k c => unNative k (nativeEval pv c)
  | _ => 0

/-! ## Concrete stores used by the claim witnesses (from the unit tests) -/

def storeC1 : ParameterValues := ⟨[("a", .const 4), ("b", .const 2), ("c", .const 3)]⟩

def storeC4 : ParameterValues := ⟨[("a", .input), ("b", .const 3)]⟩

def storeC5 : ParameterValues :=
  ⟨[("a", .const 3), ("func", .callable [0, 123]), ("const", .const 254)]⟩

def storeC6 : ParameterValues :=
  ⟨[("func_n", .const 2), ("func_s", .const 3), ("func_p", .const 4),
    ("Negative electrode thickness [m]", .const 1), ("Separator thickness [m]", .const 1),
    ("Positive electrode thickness [m]", .const 1)]⟩

/-- All entries of all five dictionaries of a model are resolved. -/
def Model.allResolved (m : Model) : Prop :=
  ∀ p ∈ m.rhs ++ m.algebraic ++ m.initial_conditions ++
      m.boundary_conditions ++ m.variablesDict, resolved p.2 = true

def storeC7 : FuzzyDict Value :=
  ⟨[("a", .const 1), ("b", .const 2), ("c", .const 3), ("d", .const 42)]⟩

def storeC8 : FuzzyDict Value := ⟨[("negative electrode diffusivity", .const 7)]⟩

def storeC10 : FuzzyDict Value := ⟨[("a length [m]", .const 1)]⟩

/-! ## Folding lemmas for the substitution engine -/

theorem mkBin_scalar (k : BinKind) (x y : ℚ) :
    mkBin k (.Scalar x) (.Scalar y) = .Scalar (binNative k x y) := by
  cases k <;> rfl

/-- Strong-induction workhorse for the folding law: on a tree whose leaves
are `Scalar`s and constant-bound `Parameter`s, the engine returns the native
evaluation, folded into a single `Scalar`. -/
theorem processSymbol_constFold (pv : ParameterValues) :
    ∀ e, constLeaves pv e = true →
      processSymbol pv e = .ok (.Scalar (nativeEval pv e)) := by
  have main : ∀ n : ℕ, ∀ e, sizeOf e ≤ n → constLeaves pv e = true →
      processSymbol pv e = .ok (.Scalar (nativeEval pv e)) := by
    intro n
    induction n using Nat.strong_induction_on with
    | _ n ih =>
      intro e hs hc
      match e with
      | .Scalar v => simp [processSymbol, nativeEval]
      | .Parameter m =>
        simp only [constLeaves] at hc
        rw [Option.isSome_iff_exists] at hc
        obtain ⟨c, hcc⟩ := hc
        have h := hcc
        simp only [constOf] at h
        simp only [processSymbol, nativeEval, hcc, Option.getD_some]
        rcases hg : pv.getItem m with e | ⟨w, v⟩
        · rw [hg] at h
          cases h
        · rw [hg] at h
          cases v with
          | const c2 =>
            simp only [Option.some.injEq] at h
            subst h
            rfl
          | input => cases h
          | callable cs => cases h
      | .BinaryOperator k l r =>
        simp only [constLeaves, Bool.and_eq_true] at hc
        have hsl : sizeOf l < n := by
          have : sizeOf l < sizeOf (Expr.BinaryOperator k l r) := by
            simp
            omega
          omega
        have hsr : sizeOf r < n := by
          have : sizeOf r < sizeOf (Expr.BinaryOperator k l r) := by
            simp
          omega
        have hl := ih (sizeOf l) hsl l le_rfl hc.1
        have hr := ih (sizeOf r) hsr r le_rfl hc.2
        simp only [processSymbol, hl, hr, nativeEval, mkBin_scalar]
      | .UnaryOperator k c =>
        simp only [constLeaves] at hc
        have hsc : sizeOf c < n := by
          have : sizeOf c < sizeOf (Expr.UnaryOperator k c) := by
            simp
          omega
        have hcp := ih (sizeOf c) hsc c le_rfl hc
        simp only [processSymbol, hcp, nativeEval]
        cases k
        rfl
      | .FoldedScalar v cs a => simp [constLeaves] at hc
      | .InputParameter m => simp [constLeaves] at hc
      | .Variable m => simp [constLeaves] at hc
      | .FunctionParameter m an a dv => simp [constLeaves] at hc
      | .PrimaryBroadcast c dom => simp [constLeaves] at hc
      | .Concatenation cs => simp [constLeaves] at hc
      | .Integral c => simp [constLeaves] at hc
  intro e
  exact main (sizeOf e) e le_rfl

/-! ## Resolution invariant: no unresolved reference survives -/


theorem resolved_mkAdd {l r : Expr} (hl : resolved l = true) (hr : resolved r = true) :
    resolved (mkAdd l r) = true := by
  unfold mkAdd
  split <;> (try split) <;> simp_all [resolved]

theorem resolved_mkSub {l r : Expr} (hl : resolved l = true) (hr : resolved r = true) :
    resolved (mkSub l r) = true := by
  unfold mkSub
  split <;> (try split) <;> simp_all [resolved]

theorem resolved_mkMul {l r : Expr} (hl : resolved l = true) (hr : resolved r = true) :
    resolved (mkMul l r) = true := by
  unfold mkMul
  split <;> (try split) <;> (try split) <;> simp_all [resolved]

theorem resolved_mkDiv {l r : Expr} (hl : resolved l = true) (hr : resolved r = true) :
    resolved (mkDiv l r) = true := by
  unfold mkDiv
  split <;> (try split) <;> simp_all [resolved]

theorem resolved_mkBin {k : BinKind} {l r : Expr} (hl : resolved l = true)
    (hr : resolved r = true) : resolved (mkBin k l r) = true := by
  cases k <;>
    simp only [mkBin] <;>
    [exact resolved_mkAdd hl hr; exact resolved_mkSub hl hr;
     exact resolved_mkMul hl hr; exact resolved_mkDiv hl hr]

theorem resolved_mkUn {k : UnKind} {c : Expr} (hc : resolved c = true) :
    resolved (mkUn k c) = true := by
  unfold mkUn
  split <;> simp_all [resolved]

theorem resolved_polyBody {x : Expr} (hx : resolved x = true) :
    ∀ cs : List ℚ, resolved (polyBody cs x) = true := by
  intro cs
  induction cs with
  | nil => rfl
  | cons a rest ih => simp [polyBody, resolved, hx, ih]

theorem resolved_polyBodyS {x : Expr} (hx : resolved x = true) :
    ∀ cs : List ℚ, resolved (polyBodyS cs x) = true := by
  intro cs
  induction cs with
  | nil => rfl
  | cons a rest ih => exact resolved_mkAdd (by rfl) (resolved_mkMul hx ih)

theorem resolved_polyDerivBody {x : Expr} (hx : resolved x = true) :
    ∀ cs : List ℚ, resolved (polyDerivBody cs x) = true := by
  intro cs
  induction cs with
  | nil => rfl
  | cons a rest ih => exact resolved_mkAdd (resolved_polyBodyS hx rest) (resolved_mkMul hx ih)

theorem resolved_diff : ∀ e d, resolved e = true → resolved (Expr.diff e d) = true := by
  have main : ∀ n : ℕ, ∀ e d, sizeOf e ≤ n → resolved e = true →
      resolved (Expr.diff e d) = true := by
    intro n
    induction n using Nat.strong_induction_on with
    | _ n ih =>
      intro e d hs he
      rw [Expr.diff.eq_def]
      split
      · simp [resolved]
      · match e with
        | .Scalar v => simp [resolved]
        | .FoldedScalar v cs a =>
          simp only [resolved] at he
          have ha : sizeOf a < n := by
            have : sizeOf a < sizeOf (Expr.FoldedScalar v cs a) := by
              simp
            omega
          exact resolved_mkMul (resolved_polyDerivBody he cs) (ih (sizeOf a) ha a d le_rfl he)
        | .Parameter m => simp [resolved] at he
        | .InputParameter m => simp [resolved]
        | .Variable m => simp [resolved]
        | .FunctionParameter m an a dv => simp [resolved] at he
        | .BinaryOperator k l r =>
          simp only [resolved, Bool.and_eq_true] at he
          have hl : sizeOf l < n := by
            have : sizeOf l < sizeOf (Expr.BinaryOperator k l r) := by
              simp
              omega
            omega
          have hr : sizeOf r < n := by
            have : sizeOf r < sizeOf (Expr.BinaryOperator k l r) := by
              simp
            omega
          have ihl := ih (sizeOf l) hl l d le_rfl he.1
          have ihr := ih (sizeOf r) hr r d le_rfl he.2
          cases k with
          | add => exact resolved_mkAdd ihl ihr
          | sub => exact resolved_mkSub ihl ihr
          | mul => exact resolved_mkAdd (resolved_mkMul ihl he.2) (resolved_mkMul he.1 ihr)
          | div =>
            exact resolved_mkDiv
              (resolved_mkSub (resolved_mkMul ihl he.2) (resolved_mkMul he.1 ihr))
              (resolved_mkMul he.2 he.2)
        | .UnaryOperator k c =>
          simp only [resolved] at he
          have hc : sizeOf c < n := by
            have : sizeOf c < sizeOf (Expr.UnaryOperator k c) := by
              simp
            omega
          cases k
          exact resolved_mkUn (ih (sizeOf c) hc c d le_rfl he)
        | .PrimaryBroadcast c dom =>
          simp only [resolved] at he
          have hc : sizeOf c < n := by
            have : sizeOf c < sizeOf (Expr.PrimaryBroadcast c dom) := by
              simp
              omega
            omega
          simpa [resolved] using ih (sizeOf c) hc c d le_rfl he
        | .Concatenation cs => simp [resolved]
        | .Integral c => simp [resolved]
  intro e d
  exact main (sizeOf e) e d le_rfl

theorem resolved_finishFP {n : String} {v : Value} {ra : Except PErr Expr}
    {rd : Option (Except PErr Expr)} {r : Expr}
    (hra : ∀ a2, ra = .ok a2 → resolved a2 = true)
    (h : finishFunctionParameter n v ra rd = .ok r) : resolved r = true := by
  unfold finishFunctionParameter at h
  cases v with
  | const c =>
    match rd, h with
    | none, h =>
      cases h
      simp [resolved]
    | some (.error e), h => cases h
    | some (.ok d2), h =>
      cases h
      exact resolved_diff _ d2 (by simp [resolved])
  | input =>
    match rd, h with
    | none, h =>
      cases h
      simp [resolved]
    | some (.error e), h => cases h
    | some (.ok d2), h =>
      cases h
      exact resolved_diff _ d2 (by simp [resolved])
  | callable cs =>
    cases ha2 : ra with
    | error e =>
      rw [ha2] at h
      cases rd with
      | none => cases h
      | some rd0 => cases h
    | ok a2 =>
      rw [ha2] at h
      have h2 := hra a2 ha2
      match rd, h with
      | none, h =>
        cases a2 <;> cases h <;>
          first
            | exact resolved_polyBodyS h2 cs
            | simp_all [resolved]
      | some (.error e), h => cases h
      | some (.ok d2), h =>
        cases h
        exact resolved_diff _ d2 (resolved_polyBody h2 cs)



theorem processSymbol_resolved (pv : ParameterValues) :
    (∀ e r, processSymbol pv e = .ok r → resolved r = true) ∧
    (∀ es rs, processSeq pv es = .ok rs → resolvedList rs = true) := by
  have main : ∀ n : ℕ,
      (∀ e, sizeOf e ≤ n → ∀ r, processSymbol pv e = .ok r → resolved r = true) ∧
      (∀ es : List Expr, sizeOf es ≤ n → ∀ rs, processSeq pv es = .ok rs →
        resolvedList rs = true) := by
    intro n
    induction n using Nat.strong_induction_on with
    | _ n ih =>
      constructor
      · intro e hs r hok
        match e with
        | .Scalar v =>
          simp only [processSymbol] at hok
          cases hok
          simp [resolved]
        | .FoldedScalar v cs a =>
          have ha : sizeOf a < n := by
            have : sizeOf a < sizeOf (Expr.FoldedScalar v cs a) := by
              simp
            omega
          simp only [processSymbol] at hok
          cases hpa : processSymbol pv a with
          | error err => rw [hpa] at hok; cases hok
          | ok a2 =>
            rw [hpa] at hok
            cases hok
            simpa [resolved] using (ih (sizeOf a) ha).1 a le_rfl a2 hpa
        | .Parameter m =>
          simp only [processSymbol] at hok
          rcases hg : pv.getItem m with err | ⟨w, v⟩
          · rw [hg] at hok; cases hok
          · rw [hg] at hok
            cases v with
            | const c => cases hok; simp [resolved]
            | input => cases hok; simp [resolved]
            | callable cs => cases hok
        | .InputParameter m =>
          simp only [processSymbol] at hok
          cases hok
          simp [resolved]
        | .Variable m =>
          simp only [processSymbol] at hok
          cases hok
          simp [resolved]
        | .FunctionParameter m an a dv =>
          have ha : sizeOf a < n := by
            have : sizeOf a < sizeOf (Expr.FunctionParameter m an a dv) := by
              simp
              omega
            omega
          have hra : ∀ a2, processSymbol pv a = .ok a2 → resolved a2 = true :=
            fun a2 => (ih (sizeOf a) ha).1 a le_rfl a2
          simp only [processSymbol] at hok
          rcases hg : pv.getItem m with err | ⟨w, v⟩
          · rw [hg] at hok; cases hok
          · rw [hg] at hok
            cases dv with
            | none => exact resolved_finishFP hra hok
            | some d => exact resolved_finishFP hra hok
        | .BinaryOperator k l r =>
          have hsl : sizeOf l < n := by
            have : sizeOf l < sizeOf (Expr.BinaryOperator k l r) := by
              simp
              omega
            omega
          have hsr : sizeOf r < n := by
            have : sizeOf r < sizeOf (Expr.BinaryOperator k l r) := by
              simp
            omega
          simp only [processSymbol] at hok
          cases hpl : processSymbol pv l with
          | error err => rw [hpl] at hok; cases hok
          | ok l2 =>
            rw [hpl] at hok
            cases hpr : processSymbol pv r with
            | error err => rw [hpr] at hok; cases hok
            | ok r2 =>
              rw [hpr] at hok
              cases hok
              exact resolved_mkBin ((ih (sizeOf l) hsl).1 l le_rfl l2 hpl)
                ((ih (sizeOf r) hsr).1 r le_rfl r2 hpr)
        | .UnaryOperator k c =>
          have hsc : sizeOf c < n := by
            have : sizeOf c < sizeOf (Expr.UnaryOperator k c) := by
              simp
            omega
          simp only [processSymbol] at hok
          cases hpc : processSymbol pv c with
          | error err => rw [hpc] at hok; cases hok
          | ok c2 =>
            rw [hpc] at hok
            cases hok
            exact resolved_mkUn ((ih (sizeOf c) hsc).1 c le_rfl c2 hpc)
        | .PrimaryBroadcast c dom =>
          have hsc : sizeOf c < n := by
            have : sizeOf c < sizeOf (Expr.PrimaryBroadcast c dom) := by
              simp
              omega
            omega
          simp only [processSymbol] at hok
          cases hpc : processSymbol pv c with
          | error err => rw [hpc] at hok; cases hok
          | ok c2 =>
            rw [hpc] at hok
            cases hok
            simpa [resolved] using (ih (sizeOf c) hsc).1 c le_rfl c2 hpc
        | .Concatenation cs =>
          have hscs : sizeOf cs < n := by
            have : sizeOf cs < sizeOf (Expr.Concatenation cs) := by
              simp
            omega
          simp only [processSymbol] at hok
          cases hpc : processSeq pv cs with
          | error err => rw [hpc] at hok; cases hok
          | ok cs2 =>
            rw [hpc] at hok
            cases hok
            simpa [resolved] using (ih (sizeOf cs) hscs).2 cs le_rfl cs2 hpc
        | .Integral c =>
          have hsc : sizeOf c < n := by
            have : sizeOf c < sizeOf (Expr.Integral c) := by
              simp
            omega
          simp only [processSymbol] at hok
          cases hpc : processSymbol pv c with
          | error err => rw [hpc] at hok; cases hok
          | ok c2 =>
            rw [hpc] at hok
            have hc2 := (ih (sizeOf c) hsc).1 c le_rfl c2 hpc
            match c2, hc2, hok with
            | .Concatenation bs, hc2, hok =>
              cases hfold : foldConcatBroadcasts pv bs with
              | some w =>
                simp only [hfold] at hok
                cases hok
                simp [resolved]
              | none =>
                simp only [hfold] at hok
                cases hok
                simpa [resolved] using hc2
            | .Scalar v2, hc2, hok => cases hok; simp [resolved]
            | .FoldedScalar v2 cs2 a2, hc2, hok =>
              cases hok
              simp only [resolved] at hc2 ⊢
              exact hc2
            | .Parameter m2, hc2, hok => cases hok; simp [resolved] at hc2
            | .InputParameter m2, hc2, hok => cases hok; simp [resolved]
            | .Variable m2, hc2, hok => cases hok; simp [resolved]
            | .FunctionParameter m2 an2 a2 dv2, hc2, hok =>
              cases hok
              simp [resolved] at hc2
            | .BinaryOperator k2 l2 r2, hc2, hok => cases hok; simpa [resolved] using hc2
            | .UnaryOperator k2 cc2, hc2, hok => cases hok; simpa [resolved] using hc2
            | .PrimaryBroadcast cc2 dom2, hc2, hok => cases hok; simpa [resolved] using hc2
            | .Integral cc2, hc2, hok => cases hok; simpa [resolved] using hc2
      · intro es hs rs hok
        match es with
        | [] =>
          simp only [processSeq] at hok
          cases hok
          simp [resolvedList]
        | e :: rest =>
          have hse : sizeOf e < n := by
            have : sizeOf e < sizeOf (e :: rest) := by
              simp
              omega
            omega
          have hsrest : sizeOf rest < n := by
            have : sizeOf rest < sizeOf (e :: rest) := by
              simp
            omega
          simp only [processSeq] at hok
          cases hpe : processSymbol pv e with
          | error err => rw [hpe] at hok; cases hok
          | ok e2 =>
            rw [hpe] at hok
            cases hprest : processSeq pv rest with
            | error err => rw [hprest] at hok; cases hok
            | ok rest2 =>
              rw [hprest] at hok
              cases hok
              simp only [resolvedList, Bool.and_eq_true]
              exact ⟨(ih (sizeOf e) hse).1 e le_rfl e2 hpe,
                (ih (sizeOf rest) hsrest).2 rest le_rfl rest2 hprest⟩
  constructor
  · intro e r
    exact (main (sizeOf e)).1 e le_rfl r
  · intro es rs
    exact (main (sizeOf es)).2 es le_rfl rs



/-! ## The claims -/


/-- C1: on an expression tree whose leaves are Scalars and Parameters each
bound in the store to a numeric constant, `processSymbol` returns a single
Scalar whose value is the native numeric evaluation of the tree; in
particular a bare constant-bound Parameter becomes a Scalar holding the
stored constant. -/
theorem C1_constant_tree_folds :
    (∀ pv e, constLeaves pv e = true →
      processSymbol pv e = .ok (.Scalar (nativeEval pv e))) ∧
    (∀ (pv : ParameterValues) n w c, pv.getItem n = .ok (w, .const c) →
      processSymbol pv (.Parameter n) = .ok (.Scalar c)) := by
  constructor
  · intro pv
    exact processSymbol_constFold pv
  · intro pv n w c h
    simp only [processSymbol, h]

/-- Witness: with store `{a: 4, b: 2, c: 3}`, `Parameter(a) + Parameter(b)`
processes to `Scalar(6)`, and the bare `Parameter(a)` to `Scalar(4)`. -/
theorem C1_constant_tree_folds_witness :
    processSymbol storeC1 (.BinaryOperator .add (.Parameter "a") (.Parameter "b")) =
      .ok (.Scalar 6) ∧
    processSymbol storeC1 (.Parameter "a") = .ok (.Scalar 4) := by
  constructor
  · have h := C1_constant_tree_folds.1 storeC1
      (.BinaryOperator .add (.Parameter "a") (.Parameter "b")) (by decide)
    rw [h]
    have ha : storeC1.getItem "a" = .ok (none, .const 4) := by decide
    have hb : storeC1.getItem "b" = .ok (none, .const 2) := by decide
    norm_num [nativeEval, constOf, ha, hb, binNative]
  · exact C1_constant_tree_folds.2 storeC1 "a" none 4 (by decide)



/-- `mkAdd` evaluates to the sum of its operands' values. -/
theorem evalWith_mkAdd {I : String → ℚ} {l r : Expr} {a b : ℚ}
    (hl : evalWith I l = some a) (hr : evalWith I r = some b) :
    evalWith I (mkAdd l r) = some (a + b) := by
  unfold mkAdd
  split <;> (try split) <;> simp_all [evalWith, binNative]
  all_goals ring

/-- `mkMul` evaluates to the product of its operands' values. -/
theorem evalWith_mkMul {I : String → ℚ} {l r : Expr} {a b : ℚ}
    (hl : evalWith I l = some a) (hr : evalWith I r = some b) :
    evalWith I (mkMul l r) = some (a * b) := by
  unfold mkMul
  split <;> (try split) <;> (try split) <;> simp_all [evalWith, binNative] <;>
    (subst_vars; ring)

/-- The plain Horner tree of a polynomial evaluates to the polynomial's
value at the argument's value. -/
theorem evalWith_polyBody {I : String → ℚ} {x : Expr} {q : ℚ}
    (hx : evalWith I x = some q) :
    ∀ cs : List ℚ, evalWith I (polyBody cs x) = some (polyEval cs q) := by
  intro cs
  induction cs with
  | nil => rfl
  | cons a rest ih => simp [polyBody, polyEval, evalWith, hx, ih, binNative]

/-- The simplified Horner tree of a polynomial evaluates to the polynomial's
value at the argument's value. -/
theorem evalWith_polyBodyS {I : String → ℚ} {x : Expr} {q : ℚ}
    (hx : evalWith I x = some q) :
    ∀ cs : List ℚ, evalWith I (polyBodyS cs x) = some (polyEval cs q) := by
  intro cs
  induction cs with
  | nil => rfl
  | cons a rest ih =>
    show evalWith I (mkAdd (.Scalar a) (mkMul x (polyBodyS rest x))) = _
    rw [evalWith_mkAdd (show evalWith I (.Scalar a) = some a from rfl)
      (evalWith_mkMul hx ih)]
    rfl

/-- The recomputed derivative tree of a polynomial evaluates to the
polynomial's derivative value at the argument's value. -/
theorem evalWith_polyDerivBody {I : String → ℚ} {x : Expr} {q : ℚ}
    (hx : evalWith I x = some q) :
    ∀ cs : List ℚ, evalWith I (polyDerivBody cs x) = some (polyEvalDeriv cs q) := by
  intro cs
  induction cs with
  | nil => rfl
  | cons a rest ih =>
    show evalWith I (mkAdd (polyBodyS rest x) (mkMul x (polyDerivBody rest x))) = _
    rw [evalWith_mkAdd (evalWith_polyBodyS hx rest) (evalWith_mkMul hx ih)]
    rfl

/-- Symbolically differentiating the Horner body of a polynomial with respect
to a variable `d` whose derivative tree is `Scalar 1` — and which is
structurally distinct from every scalar and operator node of the body —
yields a tree that evaluates to the polynomial's derivative value at the
argument's value. -/
theorem diff_polyBody_eval {I : String → ℚ} {d x : Expr} {q : ℚ}
    (hx : evalWith I x = some q)
    (hdx : Expr.diff x d = .Scalar 1)
    (hbin : ∀ k l r, beqExpr (.BinaryOperator k l r) d = false) :
    ∀ cs : List ℚ, (∀ a ∈ (0 : ℚ) :: cs, beqExpr (.Scalar a) d = false) →
      evalWith I (Expr.diff (polyBody cs x) d) = some (polyEvalDeriv cs q) := by
  intro cs
  induction cs with
  | nil =>
    intro hsc
    have h0 : beqExpr (.Scalar 0) d = false := hsc 0 (by simp)
    rw [show polyBody [] x = .Scalar 0 from rfl, Expr.diff.eq_def]
    simp [h0, evalWith, polyEvalDeriv]
  | cons a rest ih =>
    intro hsc
    have ha : beqExpr (.Scalar a) d = false := hsc a (by simp)
    have hrest : ∀ b ∈ (0 : ℚ) :: rest, beqExpr (.Scalar b) d = false := by
      intro b hb
      rcases List.mem_cons.mp hb with h | h
      · exact hsc b (by simp [h])
      · exact hsc b (by simp [h])
    have hih := ih hrest
    have hda : Expr.diff (.Scalar a) d = .Scalar 0 := by
      rw [Expr.diff.eq_def]
      simp [ha]
    have hdm : Expr.diff (.BinaryOperator .mul x (polyBody rest x)) d =
        mkAdd (mkMul (Expr.diff x d) (polyBody rest x))
          (mkMul x (Expr.diff (polyBody rest x) d)) := by
      rw [Expr.diff.eq_def]
      simp [hbin]
    rw [show polyBody (a :: rest) x =
        .BinaryOperator .add (.Scalar a) (.BinaryOperator .mul x (polyBody rest x)) from rfl,
      Expr.diff.eq_def]
    simp only [hbin, Bool.false_eq_true, if_false]
    rw [hda, hdm, hdx]
    have h1 : evalWith I (mkMul (.Scalar 1) (polyBody rest x)) =
        some (1 * polyEval rest q) :=
      evalWith_mkMul (show evalWith I (.Scalar 1) = some 1 from rfl)
        (evalWith_polyBody hx rest)
    have h2 : evalWith I (mkMul x (Expr.diff (polyBody rest x) d)) =
        some (q * polyEvalDeriv rest q) := evalWith_mkMul hx hih
    rw [evalWith_mkAdd (show evalWith I (.Scalar 0) = some 0 from rfl)
      (evalWith_mkAdd h1 h2)]
    simp [polyEvalDeriv]

/-- `polyEvalDeriv` really is the derivative: at every point `x`, the
polynomial function `polyEval cs` has derivative `polyEvalDeriv cs x`. -/
theorem polyEval_hasDerivAt :
    ∀ (cs : List ℚ) (x : ℚ),
      HasDerivAt (fun t => polyEval cs t) (polyEvalDeriv cs x) x := by
  intro cs
  induction cs with
  | nil =>
    intro x
    simpa [polyEval, polyEvalDeriv] using hasDerivAt_const x (0 : ℚ)
  | cons a rest ih =>
    intro x
    have h := (hasDerivAt_const x a).add ((hasDerivAt_id x).mul (ih x))
    simpa [polyEval, polyEvalDeriv] using h

/-- C2: with the store binding "func" to a constant-returning callable (the
polynomial with coefficients `coeffs`), differentiating the
`FunctionParameter` and then processing — or processing first, which folds
the node to a scalar, and differentiating the folded result — evaluates to
the true derivative of the underlying function at the argument's value
(`HasDerivAt` certifies `polyEvalDeriv` as that true derivative): (1) the
polynomial function has derivative `polyEvalDeriv coeffs x` at every `x`;
(2) with an input-parameter argument, diff-then-process succeeds and the
result evaluates, for every input value `x`, to the derivative at `x`;
(3) processing the constant-argument node alone folds it to a scalar
carrying the pre-fold back-reference; (4) differentiating that folded
result evaluates to the derivative at the argument's value `c`; and (5)
diff-then-process of the constant-argument node does too.  The hypotheses
keep the differentiation variable `Scalar c` structurally distinct from the
scalar nodes of the function body (pybamm identifies equal-valued
scalars). -/
theorem C2_differentiation_threads_through_fold (coeffs : List ℚ) (c : ℚ)
    (hmem : c ∉ coeffs) (hc0 : c ≠ 0) :
    (∀ x : ℚ, HasDerivAt (fun t => polyEval coeffs t) (polyEvalDeriv coeffs x) x) ∧
    (∃ r : Expr,
      processSymbol ⟨[("func", .callable coeffs)]⟩
        (Expr.diff (.FunctionParameter "func" "a" (.InputParameter "a") none)
          (.InputParameter "a")) = .ok r ∧
      ∀ x : ℚ, evalWith (fun _ => x) r = some (polyEvalDeriv coeffs x)) ∧
    processSymbol ⟨[("func", .callable coeffs)]⟩
      (.FunctionParameter "func" "a" (.Scalar c) none) =
      .ok (.FoldedScalar (polyEval coeffs c) coeffs (.Scalar c)) ∧
    evalWith (fun _ => 0)
      (Expr.diff (.FoldedScalar (polyEval coeffs c) coeffs (.Scalar c)) (.Scalar c)) =
      some (polyEvalDeriv coeffs c) ∧
    (∃ r : Expr,
      processSymbol ⟨[("func", .callable coeffs)]⟩
        (Expr.diff (.FunctionParameter "func" "a" (.Scalar c) none) (.Scalar c)) = .ok r ∧
      evalWith (fun _ => 0) r = some (polyEvalDeriv coeffs c)) := by
  have hscal : ∀ a ∈ (0 : ℚ) :: coeffs, beqExpr (.Scalar a) (.Scalar c) = false := by
    intro a ha
    rcases List.mem_cons.mp ha with h | h
    · subst h
      simp [beqExpr]
      exact fun h => hc0 h.symm
    · simp [beqExpr]
      exact fun he => hmem (he ▸ h)
  have hdc : Expr.diff (.Scalar c) (.Scalar c) = .Scalar 1 := by
    rw [Expr.diff.eq_def]
    simp [beqExpr]
  refine ⟨polyEval_hasDerivAt coeffs, ?_, rfl, ?_, ?_⟩
  · refine ⟨Expr.diff (polyBody coeffs (.InputParameter "a")) (.InputParameter "a"),
      rfl, ?_⟩
    intro x
    exact diff_polyBody_eval
      (show evalWith (fun _ => x) (.InputParameter "a") = some x from rfl)
      (show Expr.diff (.InputParameter "a") (.InputParameter "a") = .Scalar 1 from rfl)
      (fun k l r => rfl) coeffs (fun a _ => rfl)
  · have hbeq : beqExpr (.FoldedScalar (polyEval coeffs c) coeffs (.Scalar c))
        (.Scalar c) = false := rfl
    rw [Expr.diff.eq_def]
    simp only [hbeq, Bool.false_eq_true, if_false]
    rw [hdc, evalWith_mkMul (evalWith_polyDerivBody
      (show evalWith (fun _ => (0:ℚ)) (.Scalar c) = some c from rfl) coeffs)
      (show evalWith (fun _ => (0:ℚ)) (.Scalar 1) = some 1 from rfl)]
    simp
  · have hocc : Expr.diff (.FunctionParameter "func" "a" (.Scalar c) none) (.Scalar c) =
        .FunctionParameter "func" "a" (.Scalar c) (some (.Scalar c)) := by
      rw [Expr.diff.eq_def]
      simp [beqExpr, occursIn]
    refine ⟨Expr.diff (polyBody coeffs (.Scalar c)) (.Scalar c), ?_, ?_⟩
    · rw [hocc]
      rfl
    · exact diff_polyBody_eval
        (show evalWith (fun _ => (0:ℚ)) (.Scalar c) = some c from rfl)
        hdc (fun k l r => rfl) coeffs hscal

/-- Witness for C2 at the cited test's function `D(c) = c ** 2` (coefficient
list `[0, 0, 1]`) and argument value 3: the function value is 9, the
derivative value is 6, and the processed derivatives evaluate to it. -/
theorem C2_differentiation_threads_through_fold_witness :
    polyEval [0, 0, 1] (3 : ℚ) = 9 ∧ polyEvalDeriv [0, 0, 1] (3 : ℚ) = 6 ∧
    ((∀ x : ℚ, HasDerivAt (fun t => polyEval [0, 0, 1] t)
        (polyEvalDeriv [0, 0, 1] x) x) ∧
     (∃ r : Expr,
       processSymbol ⟨[("func", .callable [0, 0, 1])]⟩
         (Expr.diff (.FunctionParameter "func" "a" (.InputParameter "a") none)
           (.InputParameter "a")) = .ok r ∧
       ∀ x : ℚ, evalWith (fun _ => x) r = some (polyEvalDeriv [0, 0, 1] x)) ∧
     processSymbol ⟨[("func", .callable [0, 0, 1])]⟩
       (.FunctionParameter "func" "a" (.Scalar 3) none) =
       .ok (.FoldedScalar (polyEval [0, 0, 1] 3) [0, 0, 1] (.Scalar 3)) ∧
     evalWith (fun _ => 0)
       (Expr.diff (.FoldedScalar (polyEval [0, 0, 1] 3) [0, 0, 1] (.Scalar 3))
         (.Scalar 3)) = some (polyEvalDeriv [0, 0, 1] 3) ∧
     (∃ r : Expr,
       processSymbol ⟨[("func", .callable [0, 0, 1])]⟩
         (Expr.diff (.FunctionParameter "func" "a" (.Scalar 3) none) (.Scalar 3)) =
         .ok r ∧
       evalWith (fun _ => 0) r = some (polyEvalDeriv [0, 0, 1] 3))) :=
  ⟨by norm_num [polyEval], by norm_num [polyEval, polyEvalDeriv],
   C2_differentiation_threads_through_fold [0, 0, 1] 3 (by norm_num) (by norm_num)⟩

/-- C4: a `Parameter` whose name the store maps to the external-input marker
processes to an `InputParameter` of the same name, and the marker composes
through operators: with store `{a: "[input]", b: 3}`,
`Parameter(a) + Parameter(b)` processes to `3 + InputParameter(a)`, which
evaluates to `3 + x` when the input `a` is bound to `x`. -/
theorem C4_input_marker :
    (∀ (pv : ParameterValues) n w, pv.getItem n = .ok (w, .input) →
      processSymbol pv (.Parameter n) = .ok (.InputParameter n)) ∧
    processSymbol storeC4 (.BinaryOperator .add (.Parameter "a") (.Parameter "b")) =
      .ok (.BinaryOperator .add (.Scalar 3) (.InputParameter "a")) ∧
    (∀ x : ℚ, evalWith (fun _ => x)
      (.BinaryOperator .add (.Scalar 3) (.InputParameter "a")) = some (3 + x)) := by
  refine ⟨?_, ?_, ?_⟩
  · intro pv n w h
    simp only [processSymbol, h]
  · rfl
  · intro x
    rfl

/-- Witness for C4's input-marker rule at a concrete store. -/
theorem C4_input_marker_witness :
    processSymbol storeC4 (.Parameter "a") = .ok (.InputParameter "a") :=
  C4_input_marker.1 storeC4 "a" none (by decide)

/-- C5 counterexample: with the store of
`test_process_function_parameter` (`a: 3, func: callable, const: 254`), the
constant-resolving `FunctionParameter("const", {a: Parameter("not provided")})`
processes successfully to `Scalar(254)` even though its argument holds a
`Parameter` absent from the store — the very lookup that fails with Not-Found
when attempted on its own.  This refutes the claim that the arguments are
recursively processed before the function name is resolved and that such a
node fails with a Not-Found condition. -/
theorem C5_counterexample :
    processSymbol storeC5 (.FunctionParameter "const" "a" (.Parameter "not provided") none) =
      .ok (.Scalar 254) ∧
    processSymbol storeC5 (.Parameter "not provided") =
      .error (.lookupErr (.notFound "not provided" [])) := by
  constructor
  · rfl
  · rfl

/-- C5 (amended): `processSymbol` resolves a `FunctionParameter`'s name
first.  When the name resolves to a numeric constant the arguments are not
processed at all, so the node folds to a Scalar even if an argument contains
a Parameter absent from the store; when the name resolves to a native
callable, the argument is recursively processed before the call, and a
failing argument (e.g. an absent Parameter) fails the whole node with the
propagated condition. -/
theorem C5_name_resolved_before_arguments :
    (∀ (pv : ParameterValues) n an arg w c, pv.getItem n = .ok (w, .const c) →
      processSymbol pv (.FunctionParameter n an arg none) = .ok (.Scalar c)) ∧
    (∀ (pv : ParameterValues) n an arg w coeffs err,
      pv.getItem n = .ok (w, .callable coeffs) →
      processSymbol pv arg = .error err →
      processSymbol pv (.FunctionParameter n an arg none) = .error err) := by
  constructor
  · intro pv n an arg w c h
    simp only [processSymbol, h]
    rfl
  · intro pv n an arg w coeffs err h harg
    simp only [processSymbol, h, harg]
    rfl

/-- Witness: the constant case succeeds on the unresolvable argument, the
callable case propagates the argument's Not-Found failure. -/
theorem C5_name_resolved_before_arguments_witness :
    processSymbol storeC5 (.FunctionParameter "const" "a" (.Parameter "absent") none) =
      .ok (.Scalar 254) ∧
    processSymbol storeC5 (.FunctionParameter "func" "a" (.Parameter "absent") none) =
      .error (.lookupErr (.notFound "absent" [])) := by
  constructor
  · exact C5_name_resolved_before_arguments.1 storeC5 "const" "a"
      (.Parameter "absent") none 254 (by decide)
  · exact C5_name_resolved_before_arguments.2 storeC5 "func" "a"
      (.Parameter "absent") none [0, 123] (.lookupErr (.notFound "absent" []))
      (by decide) (by rfl)

/-- C9: a model with empty `rhs` and empty `algebraic` dictionaries fails
with the Empty-Model condition, before any substitution is attempted (the
error does not depend on the store or on the other dictionaries, which are
returned untouched inside the unchanged input model). -/
theorem C9_empty_model :
    ∀ (pv : ParameterValues) (m : Model), m.rhs = [] → m.algebraic = [] →
      processModel pv m = .error .emptyModel := by
  intro pv m h1 h2
  unfold processModel
  simp [h1, h2, List.isEmpty]

/-- Witness: the empty model with a nonempty store and nonempty
`initial_conditions` fails with Empty-Model. -/
theorem C9_empty_model_witness :
    processModel storeC1 ⟨[], [], [("x", .Parameter "a")], [], [("v", .Variable "v")]⟩ =
      .error .emptyModel :=
  C9_empty_model storeC1 ⟨[], [], [("x", .Parameter "a")], [], [("v", .Variable "v")]⟩
    rfl rfl



theorem mapM_broadcastParts (pv : ParameterValues) :
    ∀ ps : List (ℚ × String),
      (ps.map fun p => Expr.PrimaryBroadcast (.Scalar p.1) p.2).mapM (broadcastConstPart pv)
        = ps.mapM (fun p =>
            match constOf pv (thicknessName p.2) with
            | some ext => some (p.1, ext)
            | none => none) := by
  intro ps
  induction ps with
  | nil => rfl
  | cons p rest ihp =>
    rw [List.map_cons, List.mapM_cons, List.mapM_cons, ihp]
    rfl

/-- C6: an `Integral` (spatial average) over a domain-concatenation whose
branches process to broadcasts of constant scalars over sub-domains folds to
a single weighted constant — the weights being the sub-domain extents
(thickness parameters) obtained from the store — instead of an explicit
integral node. -/
theorem C6_integral_of_constant_broadcasts_folds
    (pv : ParameterValues) (bs : List Expr) (ps : List (ℚ × String)) (ws : List (ℚ × ℚ))
    (hseq : processSeq pv bs = .ok (ps.map fun p => .PrimaryBroadcast (.Scalar p.1) p.2))
    (hws : ps.mapM (fun p =>
        match constOf pv (thicknessName p.2) with
        | some ext => some (p.1, ext)
        | none => none) = some ws)
    (htot : (ws.map Prod.snd).sum ≠ 0) :
    processSymbol pv (.Integral (.Concatenation bs)) =
      .ok (.Scalar ((ws.map fun p => p.1 * p.2).sum / (ws.map Prod.snd).sum)) := by
  have hfold : foldConcatBroadcasts pv (ps.map fun p =>
      Expr.PrimaryBroadcast (.Scalar p.1) p.2) =
      some ((ws.map fun p => p.1 * p.2).sum / (ws.map Prod.snd).sum) := by
    unfold foldConcatBroadcasts
    rw [mapM_broadcastParts pv ps, hws]
    simp [htot]
  simp only [processSymbol, hseq, hfold]

/-- Witness: the x-average of `concatenation(func_n, func_s, func_p)` with
constants 2, 3, 4 and all three thicknesses equal to 1 processes to
`Scalar(3)` (the repository test `test_process_integral_broadcast`). -/
theorem C6_integral_of_constant_broadcasts_folds_witness :
    processSymbol storeC6 (.Integral (.Concatenation
      [.PrimaryBroadcast (.FunctionParameter "func_n" "var_n" (.Variable "var_n") none)
        "negative electrode",
       .PrimaryBroadcast (.FunctionParameter "func_s" "var_s" (.Variable "var_s") none)
        "separator",
       .PrimaryBroadcast (.FunctionParameter "func_p" "var_p" (.Variable "var_p") none)
        "positive electrode"])) = .ok (.Scalar 3) := by
  have h := C6_integral_of_constant_broadcasts_folds storeC6
    [.PrimaryBroadcast (.FunctionParameter "func_n" "var_n" (.Variable "var_n") none)
      "negative electrode",
     .PrimaryBroadcast (.FunctionParameter "func_s" "var_s" (.Variable "var_s") none)
      "separator",
     .PrimaryBroadcast (.FunctionParameter "func_p" "var_p" (.Variable "var_p") none)
      "positive electrode"]
    [(2, "negative electrode"), (3, "separator"), (4, "positive electrode")]
    [(2, 1), (3, 1), (4, 1)]
    (by rfl) (by rfl)
    (by norm_num)
  rw [h]
  norm_num



theorem processDict_resolved (pv : ParameterValues) :
    ∀ l l2, processDict pv l = .ok l2 → ∀ p ∈ l2, resolved p.2 = true := by
  intro l
  induction l with
  | nil =>
    intro l2 h p hp
    simp only [processDict] at h
    cases h
    simp at hp
  | cons q rest ihl =>
    intro l2 h p hp
    obtain ⟨k, e⟩ := q
    simp only [processDict] at h
    cases hpe : processSymbol pv e with
    | error err => rw [hpe] at h; cases h
    | ok e2 =>
      rw [hpe] at h
      cases hrest : processDict pv rest with
      | error err => rw [hrest] at h; cases h
      | ok rest2 =>
        rw [hrest] at h
        cases h
        rcases List.mem_cons.mp hp with hq | hq
        · subst hq
          exact (processSymbol_resolved pv).1 e e2 hpe
        · exact ihl rest2 hrest p hq

/-- C3: on every input on which substitution succeeds, the result contains no
`Parameter` and no `FunctionParameter` node — every leaf of the result is a
Scalar, Variable or InputParameter kind — and likewise for every entry of
every dictionary of a successfully processed model. -/
theorem C3_no_unresolved_nodes_remain :
    (∀ (pv : ParameterValues) e r, processSymbol pv e = .ok r → resolved r = true) ∧
    (∀ (pv : ParameterValues) m m2, processModel pv m = .ok m2 → m2.allResolved) := by
  constructor
  · intro pv
    exact (processSymbol_resolved pv).1
  · intro pv m m2 h
    unfold processModel at h
    split at h
    · cases h
    · cases hr : processDict pv m.rhs with
      | error err => rw [hr] at h; cases h
      | ok rhs2 =>
        rw [hr] at h
        cases ha : processDict pv m.algebraic with
        | error err => rw [ha] at h; cases h
        | ok alg2 =>
          rw [ha] at h
          cases hi : processDict pv m.initial_conditions with
          | error err => rw [hi] at h; cases h
          | ok ics2 =>
            rw [hi] at h
            cases hb : processDict pv m.boundary_conditions with
            | error err => rw [hb] at h; cases h
            | ok bcs2 =>
              rw [hb] at h
              cases hv : processDict pv m.variablesDict with
              | error err => rw [hv] at h; cases h
              | ok vars2 =>
                rw [hv] at h
                cases h
                intro p hp
                simp only [Model.allResolved, List.mem_append] at hp
                rcases hp with ((((h1 | h2) | h3) | h4) | h5)
                · exact processDict_resolved pv _ _ hr p h1
                · exact processDict_resolved pv _ _ ha p h2
                · exact processDict_resolved pv _ _ hi p h3
                · exact processDict_resolved pv _ _ hb p h4
                · exact processDict_resolved pv _ _ hv p h5

/-- Witness: processing `Parameter(a) + Variable(var)` with store
`{a: 4, ...}` succeeds, and the claim yields that the result is free of
unresolved references; likewise for a one-equation model. -/
theorem C3_no_unresolved_nodes_remain_witness :
    resolved (.BinaryOperator .add (.Scalar 4) (.Variable "var")) = true ∧
    Model.allResolved ⟨[("var", .BinaryOperator .add (.Scalar 4) (.Variable "var"))],
      [], [], [], []⟩ := by
  constructor
  · exact C3_no_unresolved_nodes_remain.1 storeC1
      (.BinaryOperator .add (.Parameter "a") (.Variable "var")) _ (by rfl)
  · exact C3_no_unresolved_nodes_remain.2 storeC1
      ⟨[("var", .BinaryOperator .add (.Parameter "a") (.Variable "var"))], [], [], [], []⟩
      _ (by rfl)



/-! ## Exactness of the fuzzy-match scores and ranking -/


theorem cutoffOK_iff (M T : ℕ) : cutoffOK M T = true ↔ (1:ℚ)/2 ≤ ratioVal M T := by
  unfold cutoffOK scoreFrac ratioVal
  by_cases hT : T = 0
  · subst hT
    norm_num
  · have hTpos : (0:ℚ) < (T:ℚ) := by exact_mod_cast Nat.pos_of_ne_zero hT
    simp only [hT, if_false, decide_eq_true_eq]
    rw [div_le_div_iff₀ (by norm_num) hTpos]
    qify
    constructor <;> intro h <;> linarith

theorem scoreLtB_iff (M1 T1 M2 T2 : ℕ) :
    scoreLtB M1 T1 M2 T2 = true ↔ ratioVal M1 T1 < ratioVal M2 T2 := by
  unfold scoreLtB scoreFrac ratioVal
  by_cases h1 : T1 = 0 <;> by_cases h2 : T2 = 0
  · subst h1
    subst h2
    norm_num
  · subst h1
    have hp2 : (0:ℚ) < (T2:ℚ) := by exact_mod_cast Nat.pos_of_ne_zero h2
    simp only [h2, if_true, if_false, decide_eq_true_eq]
    rw [lt_div_iff₀ hp2]
    qify
    constructor <;> intro h <;> linarith
  · subst h2
    have hp1 : (0:ℚ) < (T1:ℚ) := by exact_mod_cast Nat.pos_of_ne_zero h1
    simp only [h1, if_true, if_false, decide_eq_true_eq]
    rw [div_lt_one hp1]
    qify
    constructor <;> intro h <;> linarith
  · have hp1 : (0:ℚ) < (T1:ℚ) := by exact_mod_cast Nat.pos_of_ne_zero h1
    have hp2 : (0:ℚ) < (T2:ℚ) := by exact_mod_cast Nat.pos_of_ne_zero h2
    simp only [h1, h2, if_false, decide_eq_true_eq]
    rw [div_lt_div_iff₀ hp1 hp2]
    qify

theorem scoreEqB_iff (M1 T1 M2 T2 : ℕ) :
    scoreEqB M1 T1 M2 T2 = true ↔ ratioVal M1 T1 = ratioVal M2 T2 := by
  unfold scoreEqB scoreFrac ratioVal
  by_cases h1 : T1 = 0 <;> by_cases h2 : T2 = 0
  · subst h1
    subst h2
    norm_num
  · subst h1
    have hp2 : (0:ℚ) < (T2:ℚ) := by exact_mod_cast Nat.pos_of_ne_zero h2
    simp only [h2, if_true, if_false, beq_iff_eq]
    rw [eq_comm (a := (1:ℚ)), div_eq_one_iff_eq (ne_of_gt hp2)]
    qify
    constructor <;> intro h <;> linarith
  · subst h2
    have hp1 : (0:ℚ) < (T1:ℚ) := by exact_mod_cast Nat.pos_of_ne_zero h1
    simp only [h1, if_true, if_false, beq_iff_eq]
    rw [div_eq_one_iff_eq (ne_of_gt hp1)]
    qify
    constructor <;> intro h <;> linarith
  · have hp1 : (0:ℚ) < (T1:ℚ) := by exact_mod_cast Nat.pos_of_ne_zero h1
    have hp2 : (0:ℚ) < (T2:ℚ) := by exact_mod_cast Nat.pos_of_ne_zero h2
    simp only [h1, h2, if_false, beq_iff_eq]
    rw [div_eq_div_iff (ne_of_gt hp1) (ne_of_gt hp2)]
    qify



theorem pairBefore_true_le {p q : Scored} (h : pairBefore p q = true) :
    ratioVal q.1 q.2.1 ≤ ratioVal p.1 p.2.1 := by
  unfold pairBefore at h
  rcases (by simpa using h : scoreLtB q.1 q.2.1 p.1 p.2.1 = true ∨
      (scoreEqB p.1 p.2.1 q.1 q.2.1 = true ∧ strLtB q.2.2 p.2.2 = true)) with h1 | h1
  · exact le_of_lt ((scoreLtB_iff _ _ _ _).mp h1)
  · exact le_of_eq ((scoreEqB_iff _ _ _ _).mp h1.1).symm

theorem pairBefore_false_le {p q : Scored} (h : pairBefore p q = false) :
    ratioVal p.1 p.2.1 ≤ ratioVal q.1 q.2.1 := by
  unfold pairBefore at h
  have h1 : scoreLtB q.1 q.2.1 p.1 p.2.1 = false := by
    rcases (by simpa using h : scoreLtB q.1 q.2.1 p.1 p.2.1 = false ∧
        (scoreEqB p.1 p.2.1 q.1 q.2.1 = true → strLtB q.2.2 p.2.2 = false)) with ⟨h1, _⟩
    exact h1
  by_contra hc
  have hlt : ratioVal q.1 q.2.1 < ratioVal p.1 p.2.1 := lt_of_not_le hc
  rw [← scoreLtB_iff q.1 q.2.1 p.1 p.2.1] at hlt
  rw [h1] at hlt
  cases hlt

theorem mem_insertDesc {p x : Scored} {l : List Scored} :
    x ∈ insertDesc p l ↔ x = p ∨ x ∈ l := by
  induction l with
  | nil => simp [insertDesc]
  | cons q qs ihq =>
    unfold insertDesc
    split
    · simp [List.mem_cons]
    · simp only [List.mem_cons, ihq]
      tauto

theorem mem_sortDesc {x : Scored} {l : List Scored} : x ∈ sortDesc l ↔ x ∈ l := by
  induction l with
  | nil => simp [sortDesc]
  | cons q qs ihq =>
    unfold sortDesc
    rw [mem_insertDesc]
    simp [ihq]

theorem pairwise_insertDesc {p : Scored} {l : List Scored}
    (h : l.Pairwise (fun a b => ratioVal b.1 b.2.1 ≤ ratioVal a.1 a.2.1)) :
    (insertDesc p l).Pairwise (fun a b => ratioVal b.1 b.2.1 ≤ ratioVal a.1 a.2.1) := by
  induction l with
  | nil => simp [insertDesc]
  | cons q qs ihq =>
    unfold insertDesc
    obtain ⟨hq, hqs⟩ := List.pairwise_cons.mp h
    split
    next hpq =>
      refine List.pairwise_cons.mpr ⟨?_, h⟩
      intro x hx
      rcases List.mem_cons.mp hx with rfl | hx'
      · exact pairBefore_true_le hpq
      · exact le_trans (hq x hx') (pairBefore_true_le hpq)
    next hpq =>
      refine List.pairwise_cons.mpr ⟨?_, ihq hqs⟩
      intro x hx
      rcases mem_insertDesc.mp hx with rfl | hx'
      · exact pairBefore_false_le (Bool.of_not_eq_true hpq)
      · exact hq x hx'

theorem pairwise_sortDesc (l : List Scored) :
    (sortDesc l).Pairwise (fun a b => ratioVal b.1 b.2.1 ≤ ratioVal a.1 a.2.1) := by
  induction l with
  | nil => simp [sortDesc]
  | cons q qs ihq =>
    unfold sortDesc
    exact pairwise_insertDesc ihq



theorem getCloseMatches_length_le (word : String) (poss : List String) :
    (getCloseMatches word poss).length ≤ 3 := by
  unfold getCloseMatches
  simp only [List.length_map]
  exact List.length_take_le 3 _

theorem mem_getCloseMatches {word : String} {poss : List String} {s : String}
    (hs : s ∈ getCloseMatches word poss) :
    s ∈ poss ∧ (1:ℚ)/2 ≤ ratioQ s word := by
  unfold getCloseMatches at hs
  simp only at hs
  obtain ⟨p, hp, rfl⟩ := List.mem_map.mp hs
  have hp3 : p ∈ (poss.filterMap fun x =>
      if cutoffOK (matchTotal x.data word.data) (x.data.length + word.data.length) then
        some (matchTotal x.data word.data, x.data.length + word.data.length, x)
      else none) :=
    mem_sortDesc.mp (List.mem_of_mem_take hp)
  obtain ⟨x, hx, hfx⟩ := List.mem_filterMap.mp hp3
  split at hfx
  next hcut =>
    cases hfx
    exact ⟨hx, (cutoffOK_iff _ _).mp hcut⟩
  next => cases hfx

theorem scored_ratio {word : String} {poss : List String} {p : Scored}
    (hp : p ∈ poss.filterMap fun x =>
      if cutoffOK (matchTotal x.data word.data) (x.data.length + word.data.length) then
        some (matchTotal x.data word.data, x.data.length + word.data.length, x)
      else none) :
    ratioVal p.1 p.2.1 = ratioQ p.2.2 word := by
  obtain ⟨x, hx, hfx⟩ := List.mem_filterMap.mp hp
  split at hfx
  next => cases hfx; rfl
  next => cases hfx

theorem pairwise_getCloseMatches (word : String) (poss : List String) :
    (getCloseMatches word poss).Pairwise (fun s t => ratioQ t word ≤ ratioQ s word) := by
  unfold getCloseMatches
  simp only []
  rw [List.pairwise_map]
  have h1 := pairwise_sortDesc (poss.filterMap fun x =>
    if cutoffOK (matchTotal x.data word.data) (x.data.length + word.data.length) then
      some (matchTotal x.data word.data, x.data.length + word.data.length, x)
    else none)
  have h2 := h1.imp_of_mem (S := fun p q => ratioQ q.2.2 word ≤ ratioQ p.2.2 word) ?_
  · exact h2.sublist (List.take_sublist 3 _)
  · intro a b ha hb hab
    rw [← scored_ratio (mem_sortDesc.mp ha), ← scored_ratio (mem_sortDesc.mp hb)]
    exact hab



/-- C7: looking up a name absent from the store (and not matching any
special-cased rename) fails with a `KeyError` whose message carries at most 3
fuzzy-match suggestions drawn from the store's existing keys, each of
similarity at least the cutoff 0.5 to the missing key, ranked by similarity. -/
theorem C7_missing_key_suggestions {α : Type} (d : FuzzyDict α) (key : String)
    (hmiss : d.lookupRaw key = none)
    (hpd : strContains key "particle diffusivity" = false)
    (hsoc : ¬(key = "Negative electrode SOC" ∨ key = "Positive electrode SOC"))
    (hmocv : strContains key "Measured open circuit voltage" = false)
    (hocv0 : strContains key "Open-circuit voltage at 0% SOC [V]" = false)
    (hocv100 : strContains key "Open-circuit voltage at 100% SOC [V]" = false) :
    ∃ e, d.getItem key = .error e ∧
      e.suggestions.length ≤ 3 ∧
      (∀ s ∈ e.suggestions, s ∈ d.keys ∧ (1:ℚ)/2 ≤ ratioQ s key) ∧
      e.suggestions.Pairwise (fun s t => ratioQ t key ≤ ratioQ s key) := by
  unfold FuzzyDict.getItem
  rw [hmiss]
  rw [if_neg (by simp [hpd]), if_neg hsoc, if_neg (by simp [hmocv]),
    if_neg (by simp [hocv0]), if_neg (by simp [hocv100])]
  cases hfind : (d.getBestMatches key).find?
      (fun k => strContains k key && endsWithRBrack k) with
  | some k =>
    refine ⟨.useDimensional key k, by simp only [hfind], ?_, ?_, ?_⟩
    · simp [GetErr.suggestions]
    · intro s hs
      simp only [GetErr.suggestions, List.mem_singleton] at hs
      subst hs
      have hk := List.mem_of_find?_eq_some hfind
      exact mem_getCloseMatches hk
    · simp [GetErr.suggestions]
  | none =>
    refine ⟨.notFound key (d.getBestMatches key), by simp only [hfind], ?_, ?_, ?_⟩
    · exact getCloseMatches_length_le key d.keys
    · intro s hs
      exact mem_getCloseMatches hs
    · exact pairwise_getCloseMatches key d.keys

/-- Witness: the unknown key "xyz" fails with a Not-Found condition listing
at most 3 similarity-ranked suggestions from the store's keys. -/
theorem C7_missing_key_suggestions_witness :
    ∃ e, storeC7.getItem "xyz" = .error e ∧
      e.suggestions.length ≤ 3 ∧
      (∀ s ∈ e.suggestions, s ∈ storeC7.keys ∧ (1:ℚ)/2 ≤ ratioQ s "xyz") ∧
      e.suggestions.Pairwise (fun s t => ratioQ t "xyz" ≤ ratioQ s "xyz") :=
  C7_missing_key_suggestions storeC7 "xyz" (by decide) (by decide) (by decide)
    (by decide) (by decide) (by decide)



/-- C8: a missing key containing "particle diffusivity" is redirected to its
renamed counterpart (the "electrode" spelling) with a deprecation signal
instead of failing; a missing key from the second fixed set (the
electrode-SOC names, "Measured open circuit voltage", and the 0%/100%-SOC
open-circuit-voltage names) fails with an explicit message naming the
replacement, carrying no fuzzy suggestions. -/
theorem C8_deprecation_redirects {α : Type} :
    (∀ (d : FuzzyDict α) key v, d.lookupRaw key = none →
      strContains key "particle diffusivity" = true →
      d.lookupRaw (strReplace key "particle" "electrode") = some v →
      d.getItem key =
        .ok (some ⟨strReplace key "particle" "electrode", key⟩, v)) ∧
    (∀ (d : FuzzyDict α) key,
      key ∈ ["Negative electrode SOC", "Positive electrode SOC",
        "Measured open circuit voltage", "Open-circuit voltage at 0% SOC [V]",
        "Open-circuit voltage at 100% SOC [V]"] →
      d.lookupRaw key = none →
      ∃ e, d.getItem key = .error e ∧
        e.replacementNamed.isSome = true ∧ e.suggestions = []) := by
  constructor
  · intro d key v hmiss hpd hnew
    unfold FuzzyDict.getItem
    simp only [hmiss]
    rw [if_pos (by simp [hpd])]
    simp only [hnew]
  · intro d key hkey hmiss
    simp only [List.mem_cons, List.not_mem_nil, or_false] at hkey
    unfold FuzzyDict.getItem
    rcases hkey with rfl | rfl | rfl | rfl | rfl
    · exact ⟨.socRenamed (firstWord "Negative electrode SOC"), by
        simp only [hmiss]
        rw [if_neg (by decide)]
        simp, rfl, rfl⟩
    · exact ⟨.socRenamed (firstWord "Positive electrode SOC"), by
        simp only [hmiss]
        rw [if_neg (by decide)]
        simp, rfl, rfl⟩
    · exact ⟨.measuredOCV, by
        simp only [hmiss]
        rw [if_neg (by decide), if_neg (by decide), if_pos (by decide)], rfl, rfl⟩
    · exact ⟨.ocv0NotFound, by
        simp only [hmiss]
        rw [if_neg (by decide), if_neg (by decide), if_neg (by decide),
          if_pos (by decide)], rfl, rfl⟩
    · exact ⟨.ocv100NotFound, by
        simp only [hmiss]
        rw [if_neg (by decide), if_neg (by decide), if_neg (by decide),
          if_neg (by decide), if_pos (by decide)], rfl, rfl⟩

/-- Witness: looking up "negative particle diffusivity" in a store holding
only "negative electrode diffusivity" succeeds with the stored value and a
deprecation signal; looking up "Negative electrode SOC" fails with the
explicit stoichiometry rename and no suggestions. -/
theorem C8_deprecation_redirects_witness :
    storeC8.getItem "negative particle diffusivity" =
      .ok (some ⟨"negative electrode diffusivity", "negative particle diffusivity"⟩,
        .const 7) ∧
    ∃ e, storeC8.getItem "Negative electrode SOC" = .error e ∧
      e.replacementNamed.isSome = true ∧ e.suggestions = [] := by
  constructor
  · have h := C8_deprecation_redirects.1 storeC8 "negative particle diffusivity"
      (.const 7) (by decide) (by decide) (by decide)
    rw [h]
    have : strReplace "negative particle diffusivity" "particle" "electrode" =
        "negative electrode diffusivity" := by decide
    rw [this]
  · exact C8_deprecation_redirects.2 storeC8 "Negative electrode SOC"
      (by decide) (by decide)

/-- C10: when a missing key (not matching any rename special case) is a
substring of one of its fuzzy best matches and that match ends with "]", the
lookup fails with the message directing the caller to the dimensional
version of the key, rather than with the generic best-matches message. -/
theorem C10_dimensional_version_hint {α : Type} (d : FuzzyDict α) (key : String)
    (hmiss : d.lookupRaw key = none)
    (hpd : strContains key "particle diffusivity" = false)
    (hsoc : ¬(key = "Negative electrode SOC" ∨ key = "Positive electrode SOC"))
    (hmocv : strContains key "Measured open circuit voltage" = false)
    (hocv0 : strContains key "Open-circuit voltage at 0% SOC [V]" = false)
    (hocv100 : strContains key "Open-circuit voltage at 100% SOC [V]" = false)
    (k : String) (hk : k ∈ d.getBestMatches key)
    (hsub : strContains k key = true) (hend : endsWithRBrack k = true) :
    ∃ k0, k0 ∈ d.getBestMatches key ∧ strContains k0 key = true ∧
      endsWithRBrack k0 = true ∧
      d.getItem key = .error (.useDimensional key k0) := by
  have hfind : ((d.getBestMatches key).find?
      (fun k => strContains k key && endsWithRBrack k)).isSome = true := by
    rw [List.find?_isSome]
    exact ⟨k, hk, by simp [hsub, hend]⟩
  obtain ⟨k0, hk0⟩ := Option.isSome_iff_exists.mp hfind
  have hmem := List.mem_of_find?_eq_some hk0
  have hprop := List.find?_some hk0
  simp only [Bool.and_eq_true] at hprop
  refine ⟨k0, hmem, hprop.1, hprop.2, ?_⟩
  unfold FuzzyDict.getItem
  simp only [hmiss]
  rw [if_neg (by simp [hpd]), if_neg hsoc, if_neg (by simp [hmocv]),
    if_neg (by simp [hocv0]), if_neg (by simp [hocv100])]
  simp only [hk0]

/-- Witness: the missing key "a length" is a substring of its best match
"a length [m]", which ends with "]", so the lookup fails with the
use-the-dimensional-version message. -/
theorem C10_dimensional_version_hint_witness :
    ∃ k0, k0 ∈ storeC10.getBestMatches "a length" ∧
      strContains k0 "a length" = true ∧ endsWithRBrack k0 = true ∧
      storeC10.getItem "a length" = .error (.useDimensional "a length" k0) :=
  C10_dimensional_version_hint storeC10 "a length" (by decide) (by decide) (by decide)
    (by decide) (by decide) (by decide) "a length [m]" (by decide) (by decide) (by decide)


end PyBaMM
